import Mathlib

/-!
Shallow embedding of `limitfiles.py` (class `LimitProcessor`): a per-directory
limiter that tracks matching regular files' mtimes and deletes the oldest ones
when the tracked population exceeds a hysteresis threshold.

Filesystem interaction (`os.listdir`, `os.stat`, `os.unlink`) is modelled by
oracle functions supplied at each call, returning either a result or an errno.
`OSError` propagation is modelled with `Except Errno`.  Each eviction sweep
additionally returns the list of paths `os.unlink` was called on, in call
order, so that theorems can speak about which files were physically deleted.
-/

namespace LimitFiles

/-- The errnos the source distinguishes (`errno.ENOENT` etc.). -/
inductive Errno where
  | ENOENT
  | EPERM
  | EACCES
  | ENOTDIR
  | other (n : Nat)
deriving DecidableEq

/-- `LimitProcessor._common_errnos = frozenset({errno.ENOENT, errno.EPERM, errno.EACCES})`. -/
def commonErrnos (e : Errno) : Bool :=
  match e with
  | .ENOENT => true
  | .EPERM => true
  | .EACCES => true
  | _ => false

/-- `LimitProcessor._changed_under_errnos = _common_errnos | {errno.ENOTDIR}`. -/
def changedUnderErrnos (e : Errno) : Bool :=
  commonErrnos e || e == Errno.ENOTDIR

/-- Outcome of an `os.stat` call: mode's regular-file bit plus `st_mtime`, or an errno. -/
inductive StatRes where
  | ok (isReg : Bool) (mtime : Int)
  | err (e : Errno)
deriving DecidableEq

/-- Outcome of an `os.unlink` call. -/
inductive UnlinkRes where
  | ok
  | err (e : Errno)
deriving DecidableEq

/-- `self.files`: a Python dict path → mtime, modelled as an association list in
insertion order with unique keys. -/
abbrev Files := List (String × Int)

/-- The dict's key list, in insertion order. -/
def keys (fs : Files) : List String := fs.map Prod.fst

/-- Python dict assignment `d[k] = v`: replaces the value in place when the key
exists (keeping its position), appends at the end otherwise. -/
def upsert (fs : Files) (k : String) (v : Int) : Files :=
  if (keys fs).contains k then
    fs.map (fun kv => if kv.1 = k then (k, v) else kv)
  else fs ++ [(k, v)]

/-- Python dict deletion `del d[k]` (total: a missing key is a no-op; the
source guards the only fallible use with `try/except KeyError: pass`). -/
def eraseKey (fs : Files) (k : String) : Files :=
  fs.eraseP (fun kv => kv.1 == k)

/-- `os.path.join(self.dir_name, filename)`. -/
def joinPath (dir name : String) : String := dir ++ "/" ++ name

/-- The limiter's mutable state (`self` of `LimitProcessor`). -/
structure Limiter where
  dir_name : String
  min : Int
  delete_threshold : Int
  mtch : String → Bool
  files : Files

/-- `LimitProcessor._record_file`: skip names failing `self.match`; stat the
joined path, skipping `_common_errnos`; record the mtime iff `S_ISREG`. -/
def record_file (M : String → Bool) (dir : String) (stat : String → StatRes)
    (fs : Files) (filename : String) : Except Errno Files :=
  if M filename then
    match stat (joinPath dir filename) with
    | .ok isReg mtime =>
        if isReg then .ok (upsert fs (joinPath dir filename) mtime) else .ok fs
    | .err e => if commonErrnos e then .ok fs else .error e
  else .ok fs

/-- `sorted(self.files.keys(), key=self.files.get)` as a stable sort of the
dict's (path, mtime) pairs by mtime (Python's `sorted` is stable over the
dict's insertion order). -/
def sortedPairs (fs : Files) : Files :=
  List.insertionSort (fun a b => a.2 ≤ b.2) fs

/-- The eviction candidates, oldest mtime first. -/
def sortedNames (fs : Files) : List String := (sortedPairs fs).map Prod.fst

/-- The `for path in itertools.takewhile(lambda x: deletes_left > 0, sorted_names)`
loop of `_clean_files`.  Each attempted path is prepended to the returned log;
on a successful unlink the path is deleted from the dict and `deletes_left`
decremented; a tolerated (`_common_errnos`) failure leaves both unchanged and
the loop continues; any other errno propagates. -/
def cleanLoop (u : String → UnlinkRes) :
    List String → Files → Int → Except Errno (Files × Int × List String)
  | [], fs, dl => .ok (fs, dl, [])
  | p :: rest, fs, dl =>
    if dl ≤ 0 then .ok (fs, dl, [])
    else
      match u p with
      | .ok =>
        (cleanLoop u rest (eraseKey fs p) (dl - 1)).map
          (fun out => (out.1, out.2.1, p :: out.2.2))
      | .err e =>
        if commonErrnos e then
          (cleanLoop u rest fs dl).map (fun out => (out.1, out.2.1, p :: out.2.2))
        else .error e

/-- `LimitProcessor._clean_files`.  Returns the new dict, the new
`self.delete_threshold` and the log of unlink attempts. -/
def clean_files (mn th : Int) (u : String → UnlinkRes) (fs : Files) :
    Except Errno (Files × Int × List String) :=
  if (fs.length : Int) - mn < th then .ok (fs, th, [])
  else
    match cleanLoop u (sortedNames fs) fs ((fs.length : Int) - mn) with
    | .ok (fs', _, log) =>
      if (fs'.length : Int) - mn ≥ th then .ok (fs', (fs'.length : Int) - mn + 1, log)
      else .ok (fs', th, log)
    | .error e => .error e

/-- The directory listing of `process_IN_Q_OVERFLOW`: `self.files = {}` then
`os.listdir` under `_skip_os_errors(skip_errors)` (a skipped error leaves the
listing empty), then `_record_file` on every name. -/
def scan_dir (M : String → Bool) (dir : String) (skip : Errno → Bool)
    (listdir : Except Errno (List String)) (stat : String → StatRes) :
    Except Errno Files :=
  match listdir with
  | .ok names => names.foldlM (fun fs n => record_file M dir stat fs n) ([] : Files)
  | .error e => if skip e then .ok [] else .error e

/-- `LimitProcessor.process_IN_Q_OVERFLOW`: rescan the directory into a fresh
dict, then `_clean_files`.  Note: `self.delete_threshold` is not touched except
by `_clean_files` itself. -/
def process_IN_Q_OVERFLOW (l : Limiter) (skip : Errno → Bool)
    (listdir : Except Errno (List String)) (stat : String → StatRes)
    (u : String → UnlinkRes) : Except Errno (Limiter × List String) :=
  match scan_dir l.mtch l.dir_name skip listdir stat with
  | .ok fs =>
    match clean_files l.min l.delete_threshold u fs with
    | .ok (fs', th', log) =>
        .ok ({ l with files := fs', delete_threshold := th' }, log)
    | .error e => .error e
  | .error e => .error e

/-- The error cases of `LimitProcessor.my_init` (each a `ValueError` in the
source, distinguished here by which check raised it). -/
inductive InitError where
  | invalidLow
  | invalidHigh
  | invalidWatermark
  | invalidPattern
  | osError (e : Errno)
deriving DecidableEq

/-- The final step of `my_init`: run the initial scan
`process_IN_Q_OVERFLOW(skip_errors=self._common_errnos)` from the freshly
validated state, converting any escaping `OSError` into a `ValueError`. -/
def myInitScan (dir : String) (high low : Int) (M : String → Bool)
    (listdir : Except Errno (List String)) (stat : String → StatRes)
    (u : String → UnlinkRes) : Except InitError Limiter :=
  match process_IN_Q_OVERFLOW ⟨dir, low, high - low, M, []⟩ commonErrnos
      listdir stat u with
  | .ok (l, _) => .ok l
  | .error e => .error (.osError e)

/-- `LimitProcessor.my_init`: set `self.min = low` and
`self.delete_threshold = high - low`, validate the watermarks and the pattern
(`compile` models `re.compile`, returning `none` on `re.error`), then run the
initial scan. -/
def my_init (dir : String) (high low : Int) (matchArg : Option String)
    (compile : String → Option (String → Bool))
    (listdir : Except Errno (List String)) (stat : String → StatRes)
    (u : String → UnlinkRes) : Except InitError Limiter :=
  if low < 0 then .error .invalidLow
  else if high < 0 then .error .invalidHigh
  else if high - low < 0 then .error .invalidWatermark
  else
    match matchArg with
    | none => myInitScan dir high low (fun _ => true) listdir stat u
    | some pat =>
      match compile pat with
      | none => .error .invalidPattern
      | some f => myInitScan dir high low f listdir stat u

/-- `LimitProcessor.process_IN_CREATE` (also bound to `process_IN_ATTRIB`,
`process_IN_MODIFY`, `process_IN_MOVED_TO`): `_record_file(event.name)` then
`_clean_files()`. -/
def process_IN_CREATE (l : Limiter) (name : String) (stat : String → StatRes)
    (u : String → UnlinkRes) : Except Errno (Limiter × List String) :=
  match record_file l.mtch l.dir_name stat l.files name with
  | .ok fs =>
    match clean_files l.min l.delete_threshold u fs with
    | .ok (fs', th', log) =>
        .ok ({ l with files := fs', delete_threshold := th' }, log)
    | .error e => .error e
  | .error e => .error e

/-- `LimitProcessor.process_IN_DELETE` (also `process_IN_MOVED_FROM`):
`del self.files[event.pathname]`, ignoring `KeyError`. -/
def process_IN_DELETE (l : Limiter) (pathname : String) : Limiter :=
  { l with files := eraseKey l.files pathname }

/-- One inotify event, carrying the filesystem's responses at delivery time. -/
inductive Event where
  | create (name : String) (stat : String → StatRes) (u : String → UnlinkRes)
  | attrib (name : String) (stat : String → StatRes) (u : String → UnlinkRes)
  | modify (name : String) (stat : String → StatRes) (u : String → UnlinkRes)
  | movedTo (name : String) (stat : String → StatRes) (u : String → UnlinkRes)
  | del (pathname : String)
  | movedFrom (pathname : String)
  | overflow (listdir : Except Errno (List String)) (stat : String → StatRes)
      (u : String → UnlinkRes)

/-- Dispatch of one event to its `process_*` handler (the routing
`pyinotify.ProcessEvent` performs by method name). -/
def step (l : Limiter) : Event → Except Errno (Limiter × List String)
  | .create n st u => process_IN_CREATE l n st u
  | .attrib n st u => process_IN_CREATE l n st u
  | .modify n st u => process_IN_CREATE l n st u
  | .movedTo n st u => process_IN_CREATE l n st u
  | .del p => .ok (process_IN_DELETE l p, [])
  | .movedFrom p => .ok (process_IN_DELETE l p, [])
  | .overflow ld st u => process_IN_Q_OVERFLOW l changedUnderErrnos ld st u

/-- The single-threaded event loop: process events in order, accumulating the
unlink log; the first escaping `OSError` aborts the loop. -/
def run (l : Limiter) : List Event → Except Errno (Limiter × List String)
  | [] => .ok (l, [])
  | ev :: rest =>
    match step l ev with
    | .ok (l', log) =>
      match run l' rest with
      | .ok (l'', log') => .ok (l'', log ++ log')
      | .error e => .error e
    | .error e => .error e

/-- Observable view of a run: the final dict, threshold and unlink log. -/
def viewRun (l : Limiter) (evs : List Event) : Option (Files × Int × List String) :=
  match run l evs with
  | .ok (l', log) => some (l'.files, l'.delete_threshold, log)
  | .error _ => none

/-- A stat outcome the scan tolerates: success, or a `_common_errnos` failure. -/
def statOk (s : StatRes) : Prop :=
  match s with
  | .ok _ _ => True
  | .err e => commonErrnos e = true

/-- An unlink outcome the sweep tolerates: success, or a `_common_errnos` failure. -/
def unlinkOk (r : UnlinkRes) : Prop :=
  match r with
  | .ok => True
  | .err e => commonErrnos e = true

/-- The stat oracle never reports the path as a regular file. -/
def statNotReg (stat : String → StatRes) (p : String) : Prop :=
  ∀ t, stat p ≠ StatRes.ok true t

/-- Path `p` is never presented to the limiter as a matching regular file by
this event: for a create-like event whose name joins to `p`, either the name
fails the match predicate or the event's stat oracle never reports `p` regular;
likewise for every listed name of an overflow rescan. -/
def evAvoids (d : String) (M : String → Bool) (p : String) : Event → Prop
  | .create n st _ => p = joinPath d n → M n = false ∨ statNotReg st p
  | .attrib n st _ => p = joinPath d n → M n = false ∨ statNotReg st p
  | .modify n st _ => p = joinPath d n → M n = false ∨ statNotReg st p
  | .movedTo n st _ => p = joinPath d n → M n = false ∨ statNotReg st p
  | .del _ => True
  | .movedFrom _ => True
  | .overflow ld st _ =>
      ∀ L, ld = .ok L → ∀ n, n ∈ L → p = joinPath d n →
        M n = false ∨ statNotReg st p

/-- Events after which `_clean_files` has just completed (create-like and
overflow; the two deletion events only shrink the dict). -/
def endsWithClean : Event → Prop
  | .del _ => False
  | .movedFrom _ => False
  | _ => True

/-- The kind of a directory entry as it sits in the directory (what
`os.lstat` would report); a symlink carries the kind of its link target. -/
inductive EntryKind where
  | regular
  | directory
  | fifo
  | socket
  | symlink (target : EntryKind)
deriving DecidableEq

/-- Symlink resolution: the kind `os.stat` — which follows symlinks — sees
for an entry of the given kind. -/
def resolveKind : EntryKind → EntryKind
  | .symlink k => resolveKind k
  | k => k

/-- `os.stat` on an entry of kind `k` with mtime `t`: it follows symlinks,
so the `S_ISREG` bit reflects the resolved target, not the entry itself. -/
def statOfEntry (k : EntryKind) (t : Int) : StatRes :=
  .ok (resolveKind k == .regular) t

section ConcreteInstances

/-- Stat oracle answering every path as a regular file with mtime `i`. -/
def statConst (i : Int) : String → StatRes := fun _ => .ok true i

/-- Unlink oracle that always succeeds. -/
def ulOk : String → UnlinkRes := fun _ => .ok

/-- Unlink oracle always refused with `EPERM` (an unwritable directory). -/
def ulFail : String → UnlinkRes := fun _ => .err .EPERM

/-- A `re.compile` model under which every pattern fails to compile. -/
def cmpNone : String → Option (String → Bool) := fun _ => none

/-- The limiter produced by registering `high=5, low=2`, no pattern, on an
empty directory (checked below against `my_init`). -/
def lC1 : Limiter := ⟨"d", 2, 3, fun _ => true, []⟩

/-- Creation of files `1..6`, each with mtime equal to its numeric name, every
physical delete succeeding. -/
def evsC1 : List Event :=
  [Event.create "1" (statConst 1) ulOk, Event.create "2" (statConst 2) ulOk,
   Event.create "3" (statConst 3) ulOk, Event.create "4" (statConst 4) ulOk,
   Event.create "5" (statConst 5) ulOk, Event.create "6" (statConst 6) ulOk]

/-- Unlink oracle refusing only path `"a"` (with a tolerated errno). -/
def ulButA : String → UnlinkRes := fun p => if p = "a" then .err .EPERM else .ok

/-- Three tracked files of mtimes 1, 2, 3. -/
def fs2ce : Files := [("a", 1), ("b", 2), ("c", 3)]

/-- Four tracked files of mtimes 1, 2, 3, 4. -/
def fs5ce : Files := [("a", 1), ("b", 2), ("c", 3), ("d", 4)]

/-- The limiter produced by registering `high=1, low=0`, no pattern, on an
empty directory (checked below against `my_init`). -/
def lC3 : Limiter := ⟨"d", 0, 1, fun _ => true, []⟩

/-- A create whose unlinks are refused, then an overflow rescan listing the
same single file with unlinks succeeding. -/
def evsC3 : List Event :=
  [Event.create "a" (statConst 1) ulFail,
   Event.overflow (.ok ["a"]) (statConst 1) ulOk]

/-- A limiter watching `"d"` with `low=0`, raised threshold 1, and a pattern
rejecting the name `"x"`. -/
def lC7 : Limiter := ⟨"d", 0, 1, fun n => !(n == "x"), []⟩

/-- Creation of a non-matching name `"x"`. -/
def evC7 : Event := Event.create "x" (statConst 5) ulOk

/-- Stat oracle: path `"d/a"` races away with `ENOENT`; all else is a regular
file of mtime 2. -/
def stC8a : String → StatRes :=
  fun p => if p = "d/a" then .err .ENOENT else .ok true 2

/-- Stat oracle: path `"d/a"` fails with an unrecognised errno; all else is a
regular file of mtime 2. -/
def stC8b : String → StatRes :=
  fun p => if p = "d/a" then .err (.other 5) else .ok true 2

/-- The limiter produced by `high=2, low=0` on listing `["a", "b"]` under
`stC8a` (checked below against `my_init`). -/
def lC8 : Limiter := ⟨"d", 0, 2, fun _ => true, [("d/b", 2)]⟩

/-- Stat oracle over a directory whose entries are symlinks to a regular
file of mtime 1 (`os.stat` follows the link and reports a regular file). -/
def stSymlink : String → StatRes := fun _ => statOfEntry (.symlink .regular) 1

/-- A limiter watching `"d"` with `high=1, low=0` and no pattern. -/
def lC7s : Limiter := ⟨"d", 0, 1, fun _ => true, []⟩

end ConcreteInstances

/-! ### Lemmas about the dict model -/

theorem keys_upsert (fs : Files) (k : String) (v : Int) :
    keys (upsert fs k v) = if (keys fs).contains k then keys fs else keys fs ++ [k] := by
  unfold upsert
  by_cases h : (keys fs).contains k
  · simp only [h, if_true]
    unfold keys
    rw [List.map_map]
    apply List.map_congr_left
    intro kv _
    by_cases hk : kv.1 = k
    · simp [Function.comp, hk]
    · simp [Function.comp, hk]
  · simp only [h, if_false]
    unfold keys
    simp

theorem mem_keys_upsert {fs : Files} {k p : String} {v : Int}
    (h : p ∈ keys (upsert fs k v)) : p ∈ keys fs ∨ p = k := by
  rw [keys_upsert] at h
  by_cases hc : (keys fs).contains k
  · rw [if_pos hc] at h; exact Or.inl h
  · rw [if_neg hc] at h
    rcases List.mem_append.mp h with h1 | h1
    · exact Or.inl h1
    · exact Or.inr (List.mem_singleton.mp h1)

theorem mem_keys_upsert_old {fs : Files} {k : String} {v : Int} {p : String}
    (h : p ∈ keys fs) : p ∈ keys (upsert fs k v) := by
  rw [keys_upsert]
  by_cases hc : (keys fs).contains k
  · rwa [if_pos hc]
  · rw [if_neg hc]; exact List.mem_append_left _ h

theorem mem_keys_upsert_self (fs : Files) (k : String) (v : Int) :
    k ∈ keys (upsert fs k v) := by
  rw [keys_upsert]
  by_cases hc : (keys fs).contains k
  · rw [if_pos hc]; exact by simpa using hc
  · rw [if_neg hc]; exact List.mem_append_right _ (List.mem_singleton.mpr rfl)

theorem keys_eraseKey_sublist (fs : Files) (k : String) :
    (keys (eraseKey fs k)).Sublist (keys fs) :=
  List.Sublist.map Prod.fst (List.eraseP_sublist fs)

theorem mem_of_mem_keys_eraseKey {fs : Files} {k p : String}
    (h : p ∈ keys (eraseKey fs k)) : p ∈ keys fs :=
  (keys_eraseKey_sublist fs k).subset h

theorem mem_keys_eraseKey_of_ne {fs : Files} {k p : String}
    (hne : p ≠ k) (h : p ∈ keys fs) : p ∈ keys (eraseKey fs k) := by
  unfold keys at h ⊢
  rcases List.mem_map.mp h with ⟨kv, hkv, hfst⟩
  refine List.mem_map.mpr ⟨kv, ?_, hfst⟩
  unfold eraseKey
  rw [List.mem_eraseP_of_neg]
  · exact hkv
  · simp only [beq_iff_eq]
    rw [hfst]
    exact hne

theorem nodup_keys_eraseKey {fs : Files} {k : String}
    (h : (keys fs).Nodup) : (keys (eraseKey fs k)).Nodup :=
  h.sublist (keys_eraseKey_sublist fs k)

theorem keys_eraseKey_eq (fs : Files) (k : String) :
    keys (eraseKey fs k) = (keys fs).erase k := by
  unfold keys eraseKey
  rw [List.erase_eq_eraseP', List.eraseP_map]
  rfl

theorem not_mem_keys_eraseKey_self {fs : Files} {k : String}
    (h : (keys fs).Nodup) : k ∉ keys (eraseKey fs k) := by
  rw [keys_eraseKey_eq]
  exact h.not_mem_erase

/-! ### Lemmas about the mtime sort -/

theorem sortedPairs_perm (fs : Files) : (sortedPairs fs).Perm fs := by
  unfold sortedPairs
  exact List.perm_insertionSort _ fs

theorem sortedNames_perm_keys (fs : Files) : (sortedNames fs).Perm (keys fs) :=
  (sortedPairs_perm fs).map Prod.fst

theorem mem_sortedNames {fs : Files} {p : String} :
    p ∈ sortedNames fs ↔ p ∈ keys fs :=
  (sortedNames_perm_keys fs).mem_iff

theorem nodup_sortedNames {fs : Files} (h : (keys fs).Nodup) :
    (sortedNames fs).Nodup :=
  (sortedNames_perm_keys fs).nodup_iff.mpr h

theorem length_sortedNames (fs : Files) : (sortedNames fs).length = fs.length := by
  rw [(sortedNames_perm_keys fs).length_eq]
  exact fs.length_map Prod.fst

instance mtimeLeTotal : IsTotal (String × Int) (fun a b => a.2 ≤ b.2) :=
  ⟨fun a b => le_total a.2 b.2⟩

instance mtimeLeTrans : IsTrans (String × Int) (fun a b => a.2 ≤ b.2) :=
  ⟨fun _ _ _ h h' => le_trans h h'⟩

theorem sortedPairs_ascending (fs : Files) :
    (sortedPairs fs).Pairwise (fun a b => a.2 ≤ b.2) := by
  unfold sortedPairs
  exact List.sorted_insertionSort _ fs

/-! ### Lemmas about the sweep loop -/

theorem except_map_ok {α β ε : Type} {f : α → β} {x : Except ε α} {b : β} :
    x.map f = .ok b ↔ ∃ a, x = .ok a ∧ f a = b := by
  cases x <;> simp [Except.map]

theorem cleanLoop_log_pre {u : String → UnlinkRes} :
    ∀ {names : List String} {fs : Files} {dl : Int} {fs' : Files} {dl' : Int}
      {log : List String},
      cleanLoop u names fs dl = .ok (fs', dl', log) →
      ∃ t, names = log ++ t := by
  intro names
  induction names with
  | nil =>
    intro fs dl fs' dl' log h
    unfold cleanLoop at h
    simp only [Except.ok.injEq, Prod.mk.injEq] at h
    exact ⟨[], by simp [← h.2.2]⟩
  | cons p rest ih =>
    intro fs dl fs' dl' log h
    unfold cleanLoop at h
    by_cases hdl : dl ≤ 0
    · rw [if_pos hdl] at h
      simp only [Except.ok.injEq, Prod.mk.injEq] at h
      exact ⟨p :: rest, by simp [← h.2.2]⟩
    · rw [if_neg hdl] at h
      cases hu : u p with
      | ok =>
        simp only [hu] at h
        obtain ⟨⟨fs₁, dl₁, log₁⟩, hrec, hout⟩ := except_map_ok.mp h
        obtain ⟨t, ht⟩ := ih hrec
        simp only [Prod.mk.injEq] at hout
        exact ⟨t, by simp [← hout.2.2, ht]⟩
      | err e =>
        simp only [hu] at h
        by_cases hc : commonErrnos e
        · rw [if_pos hc] at h
          obtain ⟨⟨fs₁, dl₁, log₁⟩, hrec, hout⟩ := except_map_ok.mp h
          obtain ⟨t, ht⟩ := ih hrec
          simp only [Prod.mk.injEq] at hout
          exact ⟨t, by simp [← hout.2.2, ht]⟩
        · rw [if_neg hc] at h
          cases h

theorem cleanLoop_keys_sub {u : String → UnlinkRes} :
    ∀ {names : List String} {fs : Files} {dl : Int} {fs' : Files} {dl' : Int}
      {log : List String},
      cleanLoop u names fs dl = .ok (fs', dl', log) →
      ∀ p, p ∈ keys fs' → p ∈ keys fs := by
  intro names
  induction names with
  | nil =>
    intro fs dl fs' dl' log h p hp
    unfold cleanLoop at h
    simp only [Except.ok.injEq, Prod.mk.injEq] at h
    rw [h.1]; exact hp
  | cons q rest ih =>
    intro fs dl fs' dl' log h p hp
    unfold cleanLoop at h
    by_cases hdl : dl ≤ 0
    · rw [if_pos hdl] at h
      simp only [Except.ok.injEq, Prod.mk.injEq] at h
      rw [h.1]; exact hp
    · rw [if_neg hdl] at h
      cases hu : u q with
      | ok =>
        simp only [hu] at h
        obtain ⟨⟨fs₁, dl₁, log₁⟩, hrec, hout⟩ := except_map_ok.mp h
        simp only [Prod.mk.injEq] at hout
        have : p ∈ keys (eraseKey fs q) := ih hrec p (hout.1 ▸ hp)
        exact mem_of_mem_keys_eraseKey this
      | err e =>
        simp only [hu] at h
        by_cases hc : commonErrnos e
        · rw [if_pos hc] at h
          obtain ⟨⟨fs₁, dl₁, log₁⟩, hrec, hout⟩ := except_map_ok.mp h
          simp only [Prod.mk.injEq] at hout
          exact ih hrec p (hout.1 ▸ hp)
        · rw [if_neg hc] at h
          cases h

theorem cleanLoop_removed_ok {u : String → UnlinkRes} :
    ∀ {names : List String} {fs : Files} {dl : Int} {fs' : Files} {dl' : Int}
      {log : List String},
      cleanLoop u names fs dl = .ok (fs', dl', log) →
      ∀ p, p ∈ keys fs → p ∉ keys fs' → u p = .ok := by
  intro names
  induction names with
  | nil =>
    intro fs dl fs' dl' log h p hin hout
    unfold cleanLoop at h
    simp only [Except.ok.injEq, Prod.mk.injEq] at h
    exact absurd (h.1 ▸ hin) hout
  | cons q rest ih =>
    intro fs dl fs' dl' log h p hin hnotin
    unfold cleanLoop at h
    by_cases hdl : dl ≤ 0
    · rw [if_pos hdl] at h
      simp only [Except.ok.injEq, Prod.mk.injEq] at h
      exact absurd (h.1 ▸ hin) hnotin
    · rw [if_neg hdl] at h
      cases hu : u q with
      | ok =>
        simp only [hu] at h
        obtain ⟨⟨fs₁, dl₁, log₁⟩, hrec, hout⟩ := except_map_ok.mp h
        simp only [Prod.mk.injEq] at hout
        by_cases hpq : p = q
        · rwa [hpq]
        · exact ih hrec p (mem_keys_eraseKey_of_ne hpq hin) (fun c => hnotin (hout.1 ▸ c))
      | err e =>
        simp only [hu] at h
        by_cases hc : commonErrnos e
        · rw [if_pos hc] at h
          obtain ⟨⟨fs₁, dl₁, log₁⟩, hrec, hout⟩ := except_map_ok.mp h
          simp only [Prod.mk.injEq] at hout
          exact ih hrec p hin (fun c => hnotin (hout.1 ▸ c))
        · rw [if_neg hc] at h
          cases h

theorem cleanLoop_failed_stays {u : String → UnlinkRes} :
    ∀ {names : List String} {fs : Files} {dl : Int} {fs' : Files} {dl' : Int}
      {log : List String},
      cleanLoop u names fs dl = .ok (fs', dl', log) →
      (∀ q, q ∈ names → q ∈ keys fs) → names.Nodup →
      ∀ p, p ∈ log → u p ≠ .ok → p ∈ keys fs' := by
  intro names
  induction names with
  | nil =>
    intro fs dl fs' dl' log h _ _ p hp _
    unfold cleanLoop at h
    simp only [Except.ok.injEq, Prod.mk.injEq] at h
    rw [← h.2.2] at hp
    cases hp
  | cons q rest ih =>
    intro fs dl fs' dl' log h hsub hnd p hp hne
    unfold cleanLoop at h
    by_cases hdl : dl ≤ 0
    · rw [if_pos hdl] at h
      simp only [Except.ok.injEq, Prod.mk.injEq] at h
      rw [← h.2.2] at hp
      cases hp
    · rw [if_neg hdl] at h
      have hndc := List.nodup_cons.mp hnd
      cases hu : u q with
      | ok =>
        simp only [hu] at h
        obtain ⟨⟨fs₁, dl₁, log₁⟩, hrec, hout⟩ := except_map_ok.mp h
        simp only [Prod.mk.injEq] at hout
        rw [← hout.2.2] at hp
        rcases List.mem_cons.mp hp with hpq | hpl
        · exact absurd (hpq ▸ hu) hne
        · refine hout.1 ▸ ih hrec ?_ hndc.2 p hpl hne
          intro r hr
          have hrq : r ≠ q := fun c => hndc.1 (c ▸ hr)
          exact mem_keys_eraseKey_of_ne hrq (hsub r (List.mem_cons_of_mem q hr))
      | err e =>
        simp only [hu] at h
        by_cases hc : commonErrnos e
        · rw [if_pos hc] at h
          obtain ⟨⟨fs₁, dl₁, log₁⟩, hrec, hout⟩ := except_map_ok.mp h
          simp only [Prod.mk.injEq] at hout
          rw [← hout.2.2] at hp
          rcases List.mem_cons.mp hp with hpq | hpl
          · subst hpq
            by_cases hstay : p ∈ keys fs₁
            · exact hout.1 ▸ hstay
            · exact absurd (cleanLoop_removed_ok hrec p (hsub p (List.mem_cons_self p rest)) hstay) hne
          · exact hout.1 ▸ ih hrec (fun r hr => hsub r (List.mem_cons_of_mem q hr)) hndc.2 p hpl hne
        · rw [if_neg hc] at h
          cases h

theorem cleanLoop_is_ok {u : String → UnlinkRes} (hu : ∀ p, unlinkOk (u p)) :
    ∀ (names : List String) (fs : Files) (dl : Int),
      ∃ out, cleanLoop u names fs dl = .ok out := by
  intro names
  induction names with
  | nil => intro fs dl; exact ⟨(fs, dl, []), rfl⟩
  | cons q rest ih =>
    intro fs dl
    unfold cleanLoop
    by_cases hdl : dl ≤ 0
    · rw [if_pos hdl]; exact ⟨(fs, dl, []), rfl⟩
    · rw [if_neg hdl]
      cases hq : u q with
      | ok =>
        obtain ⟨out, hout⟩ := ih (eraseKey fs q) (dl - 1)
        refine ⟨(out.1, out.2.1, q :: out.2.2), ?_⟩
        rw [hout]
        rfl
      | err e =>
        have hval := hu q
        rw [hq] at hval
        have hc : commonErrnos e = true := by simpa [unlinkOk] using hval
        obtain ⟨out, hout⟩ := ih fs dl
        refine ⟨(out.1, out.2.1, q :: out.2.2), ?_⟩
        rw [hout]
        simp [hc, Except.map]

theorem cleanLoop_allok_log {u : String → UnlinkRes} (hall : ∀ p, u p = .ok) :
    ∀ {names : List String} {fs : Files} {dl : Int} {fs' : Files} {dl' : Int}
      {log : List String},
      cleanLoop u names fs dl = .ok (fs', dl', log) →
      log = names.take dl.toNat := by
  intro names
  induction names with
  | nil =>
    intro fs dl fs' dl' log h
    unfold cleanLoop at h
    simp only [Except.ok.injEq, Prod.mk.injEq] at h
    rw [← h.2.2, List.take_nil]
  | cons q rest ih =>
    intro fs dl fs' dl' log h
    unfold cleanLoop at h
    by_cases hdl : dl ≤ 0
    · rw [if_pos hdl] at h
      simp only [Except.ok.injEq, Prod.mk.injEq] at h
      have : dl.toNat = 0 := by omega
      rw [this, List.take_zero, ← h.2.2]
    · rw [if_neg hdl] at h
      rw [hall q] at h
      obtain ⟨⟨fs₁, dl₁, log₁⟩, hrec, hout⟩ := except_map_ok.mp h
      simp only [Prod.mk.injEq] at hout
      have hn : dl.toNat = (dl - 1).toNat + 1 := by omega
      rw [← hout.2.2, hn, List.take_succ_cons, ih hrec]

/-! ### Lemmas about `_clean_files` -/

theorem clean_cases {mn th : Int} {u : String → UnlinkRes} {fs fs' : Files}
    {th' : Int} {log : List String}
    (h : clean_files mn th u fs = .ok (fs', th', log)) :
    ((fs.length : Int) - mn < th ∧ fs' = fs ∧ th' = th ∧ log = []) ∨
    (¬ (fs.length : Int) - mn < th ∧
      (∃ dl₁, cleanLoop u (sortedNames fs) fs ((fs.length : Int) - mn) =
          .ok (fs', dl₁, log)) ∧
      ((th ≤ (fs'.length : Int) - mn ∧ th' = (fs'.length : Int) - mn + 1) ∨
       ((fs'.length : Int) - mn < th ∧ th' = th))) := by
  unfold clean_files at h
  by_cases h0 : (fs.length : Int) - mn < th
  · rw [if_pos h0] at h
    simp only [Except.ok.injEq, Prod.mk.injEq] at h
    exact Or.inl ⟨h0, h.1.symm, h.2.1.symm, h.2.2.symm⟩
  · rw [if_neg h0] at h
    cases hrec : cleanLoop u (sortedNames fs) fs ((fs.length : Int) - mn) with
    | ok out =>
      obtain ⟨fs₁, dl₁, log₁⟩ := out
      simp only [hrec] at h
      by_cases h2 : (fs₁.length : Int) - mn ≥ th
      · rw [if_pos h2] at h
        simp only [Except.ok.injEq, Prod.mk.injEq] at h
        refine Or.inr ⟨h0, ⟨dl₁, ?_⟩, Or.inl ⟨?_, ?_⟩⟩
        · rw [h.1, h.2.2]
        · rw [← h.1]; exact h2
        · rw [← h.1]; exact h.2.1.symm
      · rw [if_neg h2] at h
        simp only [Except.ok.injEq, Prod.mk.injEq] at h
        refine Or.inr ⟨h0, ⟨dl₁, ?_⟩, Or.inr ⟨?_, h.2.1.symm⟩⟩
        · rw [h.1, h.2.2]
        · rw [← h.1]; omega
    | error e =>
      simp only [hrec] at h
      cases h

theorem clean_pop_inv {mn th : Int} {u : String → UnlinkRes} {fs fs' : Files}
    {th' : Int} {log : List String}
    (h : clean_files mn th u fs = .ok (fs', th', log)) :
    (fs'.length : Int) - mn < th' := by
  rcases clean_cases h with ⟨h0, h1, h2, -⟩ | ⟨-, -, ⟨-, h2⟩ | ⟨h1, h2⟩⟩
  · rw [h1, h2]; exact h0
  · omega
  · omega

theorem clean_threshold_mono {mn th : Int} {u : String → UnlinkRes}
    {fs fs' : Files} {th' : Int} {log : List String}
    (h : clean_files mn th u fs = .ok (fs', th', log)) : th ≤ th' := by
  rcases clean_cases h with ⟨-, -, h2, -⟩ | ⟨-, -, ⟨h1, h2⟩ | ⟨-, h2⟩⟩ <;> omega

theorem clean_keys_sub {mn th : Int} {u : String → UnlinkRes} {fs fs' : Files}
    {th' : Int} {log : List String}
    (h : clean_files mn th u fs = .ok (fs', th', log)) :
    ∀ p, p ∈ keys fs' → p ∈ keys fs := by
  rcases clean_cases h with ⟨-, h1, -, -⟩ | ⟨-, ⟨dl₁, hrec⟩, -⟩
  · rw [h1]; exact fun p hp => hp
  · exact cleanLoop_keys_sub hrec

theorem clean_log_pre {mn th : Int} {u : String → UnlinkRes} {fs fs' : Files}
    {th' : Int} {log : List String}
    (h : clean_files mn th u fs = .ok (fs', th', log)) :
    ∃ t, sortedNames fs = log ++ t := by
  rcases clean_cases h with ⟨-, -, -, h3⟩ | ⟨-, ⟨dl₁, hrec⟩, -⟩
  · exact ⟨sortedNames fs, by rw [h3]; rfl⟩
  · exact cleanLoop_log_pre hrec

theorem clean_log_mem_keys {mn th : Int} {u : String → UnlinkRes}
    {fs fs' : Files} {th' : Int} {log : List String}
    (h : clean_files mn th u fs = .ok (fs', th', log)) :
    ∀ p, p ∈ log → p ∈ keys fs := by
  obtain ⟨t, ht⟩ := clean_log_pre h
  intro p hp
  have : p ∈ sortedNames fs := by rw [ht]; exact List.mem_append_left t hp
  exact mem_sortedNames.mp this

theorem clean_removed_ok {mn th : Int} {u : String → UnlinkRes} {fs fs' : Files}
    {th' : Int} {log : List String}
    (h : clean_files mn th u fs = .ok (fs', th', log)) :
    ∀ p, p ∈ keys fs → p ∉ keys fs' → u p = .ok := by
  rcases clean_cases h with ⟨-, h1, -, -⟩ | ⟨-, ⟨dl₁, hrec⟩, -⟩
  · intro p hp hnp
    rw [h1] at hnp
    exact absurd hp hnp
  · exact cleanLoop_removed_ok hrec

theorem clean_failed_stays {mn th : Int} {u : String → UnlinkRes}
    {fs fs' : Files} {th' : Int} {log : List String}
    (hnd : (keys fs).Nodup)
    (h : clean_files mn th u fs = .ok (fs', th', log)) :
    ∀ p, p ∈ log → u p ≠ .ok → p ∈ keys fs' := by
  rcases clean_cases h with ⟨-, -, -, h3⟩ | ⟨-, ⟨dl₁, hrec⟩, -⟩
  · intro p hp
    rw [h3] at hp
    cases hp
  · exact cleanLoop_failed_stays hrec (fun q hq => mem_sortedNames.mp hq)
      (nodup_sortedNames hnd)

theorem clean_is_ok {mn th : Int} {u : String → UnlinkRes} {fs : Files}
    (hu : ∀ p, unlinkOk (u p)) :
    ∃ out, clean_files mn th u fs = .ok out := by
  by_cases h0 : (fs.length : Int) - mn < th
  · exact ⟨(fs, th, []), by unfold clean_files; rw [if_pos h0]⟩
  · obtain ⟨⟨fs₁, dl₁, log₁⟩, hrec⟩ :=
      cleanLoop_is_ok hu (sortedNames fs) fs ((fs.length : Int) - mn)
    by_cases h2 : (fs₁.length : Int) - mn ≥ th
    · refine ⟨(fs₁, (fs₁.length : Int) - mn + 1, log₁), ?_⟩
      unfold clean_files
      rw [if_neg h0]
      simp only [hrec]
      rw [if_pos h2]
    · refine ⟨(fs₁, th, log₁), ?_⟩
      unfold clean_files
      rw [if_neg h0]
      simp only [hrec]
      rw [if_neg h2]

theorem clean_allok_notin_drop {mn th : Int} {u : String → UnlinkRes}
    {fs fs' : Files} {th' : Int} {log : List String}
    (hall : ∀ p, u p = .ok) (hnd : (keys fs).Nodup)
    (h : clean_files mn th u fs = .ok (fs', th', log)) :
    ∀ p, p ∈ List.drop ((fs.length : Int) - mn).toNat (sortedNames fs) →
      p ∉ log := by
  rcases clean_cases h with ⟨-, -, -, h3⟩ | ⟨-, ⟨dl₁, hrec⟩, -⟩
  · intro p _ hp
    rw [h3] at hp
    cases hp
  · have hlog := cleanLoop_allok_log hall hrec
    intro p hpd hpl
    rw [hlog] at hpl
    have hnds : (sortedNames fs).Nodup := nodup_sortedNames hnd
    have hsplit : (List.take ((fs.length : Int) - mn).toNat (sortedNames fs) ++
        List.drop ((fs.length : Int) - mn).toNat (sortedNames fs)).Nodup := by
      rw [List.take_append_drop]
      exact hnds
    exact List.disjoint_of_nodup_append hsplit hpl hpd

/-! ### Lemmas about `_record_file` and the scan -/

theorem joinPath_inj {d n m : String} (h : joinPath d n = joinPath d m) : n = m := by
  unfold joinPath at h
  have h2 := congrArg String.data h
  rw [String.data_append, String.data_append] at h2
  exact String.ext (List.append_cancel_left h2)

theorem record_file_nomatch {M : String → Bool} {d : String} {st : String → StatRes}
    {n : String} (hm : M n = false) (fs : Files) :
    record_file M d st fs n = .ok fs := by
  unfold record_file
  rw [hm]
  rfl

theorem record_file_reg {M : String → Bool} {d : String} {st : String → StatRes}
    {n : String} {t : Int} (hm : M n = true) (hst : st (joinPath d n) = .ok true t)
    (fs : Files) : record_file M d st fs n = .ok (upsert fs (joinPath d n) t) := by
  unfold record_file
  rw [if_pos hm, hst]
  rfl

theorem record_file_nonreg {M : String → Bool} {d : String} {st : String → StatRes}
    {n : String} {t : Int} (hm : M n = true) (hst : st (joinPath d n) = .ok false t)
    (fs : Files) : record_file M d st fs n = .ok fs := by
  unfold record_file
  rw [if_pos hm, hst]
  rfl

theorem record_file_skip {M : String → Bool} {d : String} {st : String → StatRes}
    {n : String} {e : Errno} (hm : M n = true)
    (hst : st (joinPath d n) = .err e) (hc : commonErrnos e = true)
    (fs : Files) : record_file M d st fs n = .ok fs := by
  unfold record_file
  rw [if_pos hm, hst]
  simp [hc]

theorem record_file_fatal {M : String → Bool} {d : String} {st : String → StatRes}
    {n : String} {e : Errno} (hm : M n = true)
    (hst : st (joinPath d n) = .err e) (hc : commonErrnos e = false)
    (fs : Files) : record_file M d st fs n = .error e := by
  unfold record_file
  rw [if_pos hm, hst]
  simp [hc]

theorem record_file_is_ok {M : String → Bool} {d : String} {st : String → StatRes}
    (hst : ∀ p, statOk (st p)) (fs : Files) (n : String) :
    ∃ fs', record_file M d st fs n = .ok fs' := by
  by_cases hm : M n
  · cases hs : st (joinPath d n) with
    | ok isReg t =>
      cases isReg with
      | true => exact ⟨_, record_file_reg hm hs fs⟩
      | false => exact ⟨fs, record_file_nonreg hm hs fs⟩
    | err e =>
      have hv := hst (joinPath d n)
      rw [hs] at hv
      have hc : commonErrnos e = true := by simpa [statOk] using hv
      exact ⟨fs, record_file_skip hm hs hc fs⟩
  · exact ⟨fs, record_file_nomatch (Bool.of_not_eq_true hm) fs⟩

theorem record_file_keys_mono {M : String → Bool} {d : String}
    {st : String → StatRes} {fs fs' : Files} {n : String}
    (h : record_file M d st fs n = .ok fs') :
    ∀ p, p ∈ keys fs → p ∈ keys fs' := by
  by_cases hm : M n
  · cases hs : st (joinPath d n) with
    | ok isReg t =>
      cases isReg with
      | true =>
        rw [record_file_reg hm hs fs] at h
        injection h with h
        intro p hp
        rw [← h]
        exact mem_keys_upsert_old hp
      | false =>
        rw [record_file_nonreg hm hs fs] at h
        injection h with h
        intro p hp
        rwa [← h]
    | err e =>
      by_cases hc : commonErrnos e
      · rw [record_file_skip hm hs hc fs] at h
        injection h with h
        intro p hp
        rwa [← h]
      · rw [record_file_fatal hm hs (Bool.of_not_eq_true hc) fs] at h
        cases h
  · rw [record_file_nomatch (Bool.of_not_eq_true hm) fs] at h
    injection h with h
    intro p hp
    rwa [← h]

theorem record_file_not_mem {M : String → Bool} {d : String}
    {st : String → StatRes} {fs fs' : Files} {n : String} {p : String}
    (hp : p ∉ keys fs)
    (h : record_file M d st fs n = .ok fs')
    (hav : p = joinPath d n → M n = false ∨ statNotReg st p) :
    p ∉ keys fs' := by
  by_cases hm : M n
  · cases hs : st (joinPath d n) with
    | ok isReg t =>
      cases isReg with
      | true =>
        rw [record_file_reg hm hs fs] at h
        injection h with h
        rw [← h]
        intro hmem
        rcases mem_keys_upsert hmem with hold | hnew
        · exact hp hold
        · rcases hav hnew with hmf | hnr
          · rw [hm] at hmf
            cases hmf
          · exact hnr t (hnew ▸ hs)
      | false =>
        rw [record_file_nonreg hm hs fs] at h
        injection h with h
        rwa [← h]
    | err e =>
      by_cases hc : commonErrnos e
      · rw [record_file_skip hm hs hc fs] at h
        injection h with h
        rwa [← h]
      · rw [record_file_fatal hm hs (Bool.of_not_eq_true hc) fs] at h
        cases h
  · rw [record_file_nomatch (Bool.of_not_eq_true hm) fs] at h
    injection h with h
    rwa [← h]

theorem record_file_adds {M : String → Bool} {d : String} {st : String → StatRes}
    {fs fs' : Files} {n : String} {t : Int} (hm : M n = true)
    (hst : st (joinPath d n) = .ok true t)
    (h : record_file M d st fs n = .ok fs') :
    joinPath d n ∈ keys fs' := by
  rw [record_file_reg hm hst fs] at h
  injection h with h
  rw [← h]
  exact mem_keys_upsert_self fs (joinPath d n) t

/-- The fold `for filename in listing: self._record_file(filename)`. -/
def foldRecord (M : String → Bool) (d : String) (st : String → StatRes)
    (names : List String) (fs0 : Files) : Except Errno Files :=
  names.foldlM (fun fs n => record_file M d st fs n) fs0

theorem scan_dir_eq_foldRecord (M : String → Bool) (d : String)
    (skip : Errno → Bool) (names : List String) (st : String → StatRes) :
    scan_dir M d skip (.ok names) st = foldRecord M d st names [] := rfl

theorem foldRecord_cons (M : String → Bool) (d : String) (st : String → StatRes)
    (n : String) (rest : List String) (fs0 : Files) :
    foldRecord M d st (n :: rest) fs0 =
      match record_file M d st fs0 n with
      | .ok fs₁ => foldRecord M d st rest fs₁
      | .error e => .error e := by
  unfold foldRecord
  rw [List.foldlM_cons]
  cases record_file M d st fs0 n <;> rfl

theorem foldRecord_is_ok {M : String → Bool} {d : String} {st : String → StatRes}
    (hst : ∀ p, statOk (st p)) :
    ∀ (names : List String) (fs0 : Files),
      ∃ fs', foldRecord M d st names fs0 = .ok fs' := by
  intro names
  induction names with
  | nil => intro fs0; exact ⟨fs0, rfl⟩
  | cons n rest ih =>
    intro fs0
    obtain ⟨fs₁, h1⟩ := record_file_is_ok hst fs0 n
    obtain ⟨fs', h2⟩ := ih fs₁
    refine ⟨fs', ?_⟩
    rw [foldRecord_cons, h1]
    exact h2

theorem foldRecord_keys_mono {M : String → Bool} {d : String}
    {st : String → StatRes} :
    ∀ {names : List String} {fs0 fs' : Files},
      foldRecord M d st names fs0 = .ok fs' →
      ∀ p, p ∈ keys fs0 → p ∈ keys fs' := by
  intro names
  induction names with
  | nil =>
    intro fs0 fs' h p hp
    injection h with h
    rwa [← h]
  | cons n rest ih =>
    intro fs0 fs' h p hp
    rw [foldRecord_cons] at h
    cases h1 : record_file M d st fs0 n with
    | ok fs₁ =>
      rw [h1] at h
      exact ih h p (record_file_keys_mono h1 p hp)
    | error e =>
      rw [h1] at h
      cases h

theorem foldRecord_not_mem {M : String → Bool} {d : String}
    {st : String → StatRes} {p : String} :
    ∀ {names : List String} {fs0 fs' : Files},
      foldRecord M d st names fs0 = .ok fs' →
      p ∉ keys fs0 →
      (∀ n, n ∈ names → p = joinPath d n → M n = false ∨ statNotReg st p) →
      p ∉ keys fs' := by
  intro names
  induction names with
  | nil =>
    intro fs0 fs' h hp _
    injection h with h
    rwa [← h]
  | cons n rest ih =>
    intro fs0 fs' h hp hav
    rw [foldRecord_cons] at h
    cases h1 : record_file M d st fs0 n with
    | ok fs₁ =>
      rw [h1] at h
      have hp1 : p ∉ keys fs₁ :=
        record_file_not_mem hp h1 (hav n (List.mem_cons_self n rest))
      exact ih h hp1 (fun m hm => hav m (List.mem_cons_of_mem n hm))
    | error e =>
      rw [h1] at h
      cases h

theorem foldRecord_fatal {M : String → Bool} {d : String} {st : String → StatRes} :
    ∀ {names : List String} (fs0 : Files) {n : String} {e : Errno},
      n ∈ names → M n = true → st (joinPath d n) = .err e →
      commonErrnos e = false →
      ∃ e2, foldRecord M d st names fs0 = .error e2 := by
  intro names
  induction names with
  | nil => intro fs0 n e hn; cases hn
  | cons m rest ih =>
    intro fs0 n e hn hm hst hc
    rw [foldRecord_cons]
    cases h1 : record_file M d st fs0 m with
    | ok fs₁ =>
      rcases List.mem_cons.mp hn with hq | hq
      · subst hq
        rw [record_file_fatal hm hst hc fs0] at h1
        cases h1
      · exact ih fs₁ hq hm hst hc
    | error e2 => exact ⟨e2, rfl⟩

theorem foldRecord_kept {M : String → Bool} {d : String} {st : String → StatRes} :
    ∀ {names : List String} {fs0 fs' : Files},
      foldRecord M d st names fs0 = .ok fs' →
      ∀ n t, n ∈ names → M n = true → st (joinPath d n) = .ok true t →
        joinPath d n ∈ keys fs' := by
  intro names
  induction names with
  | nil => intro fs0 fs' _ n t hn; cases hn
  | cons m rest ih =>
    intro fs0 fs' h n t hn hm hst
    rw [foldRecord_cons] at h
    cases h1 : record_file M d st fs0 m with
    | ok fs₁ =>
      rw [h1] at h
      rcases List.mem_cons.mp hn with hq | hq
      · subst hq
        exact foldRecord_keys_mono h _ (record_file_adds hm hst h1)
      · exact ih h n t hq hm hst
    | error e =>
      rw [h1] at h
      cases h

/-! ### Lemmas about the handlers -/

theorem scan_dir_skip_err {M : String → Bool} {d : String} {skip : Errno → Bool}
    {st : String → StatRes} {e : Errno} (hs : skip e = true) :
    scan_dir M d skip (.error e) st = .ok [] := by
  unfold scan_dir
  simp [hs]

theorem scan_dir_fatal_err {M : String → Bool} {d : String} {skip : Errno → Bool}
    {st : String → StatRes} {e : Errno} (hs : skip e = false) :
    scan_dir M d skip (.error e) st = .error e := by
  unfold scan_dir
  simp [hs]

theorem overflow_ok_parts {l : Limiter} {skip : Errno → Bool}
    {ld : Except Errno (List String)} {st : String → StatRes}
    {u : String → UnlinkRes} {l' : Limiter} {log : List String}
    (h : process_IN_Q_OVERFLOW l skip ld st u = .ok (l', log)) :
    ∃ fs, scan_dir l.mtch l.dir_name skip ld st = .ok fs ∧
      clean_files l.min l.delete_threshold u fs =
        .ok (l'.files, l'.delete_threshold, log) ∧
      l'.dir_name = l.dir_name ∧ l'.min = l.min ∧ l'.mtch = l.mtch := by
  unfold process_IN_Q_OVERFLOW at h
  cases hscan : scan_dir l.mtch l.dir_name skip ld st with
  | ok fs =>
    simp only [hscan] at h
    cases hcl : clean_files l.min l.delete_threshold u fs with
    | ok out =>
      obtain ⟨fs₁, th₁, log₁⟩ := out
      simp only [hcl] at h
      simp only [Except.ok.injEq, Prod.mk.injEq] at h
      obtain ⟨h1, h2⟩ := h
      subst h2
      refine ⟨fs, rfl, ?_, ?_, ?_, ?_⟩
      · rw [← h1]
        exact hcl
      · rw [← h1]
      · rw [← h1]
      · rw [← h1]
    | error e =>
      simp only [hcl] at h
      cases h
  | error e =>
    simp only [hscan] at h
    cases h

theorem create_ok_parts {l : Limiter} {n : String} {st : String → StatRes}
    {u : String → UnlinkRes} {l' : Limiter} {log : List String}
    (h : process_IN_CREATE l n st u = .ok (l', log)) :
    ∃ fs, record_file l.mtch l.dir_name st l.files n = .ok fs ∧
      clean_files l.min l.delete_threshold u fs =
        .ok (l'.files, l'.delete_threshold, log) ∧
      l'.dir_name = l.dir_name ∧ l'.min = l.min ∧ l'.mtch = l.mtch := by
  unfold process_IN_CREATE at h
  cases hrec : record_file l.mtch l.dir_name st l.files n with
  | ok fs =>
    simp only [hrec] at h
    cases hcl : clean_files l.min l.delete_threshold u fs with
    | ok out =>
      obtain ⟨fs₁, th₁, log₁⟩ := out
      simp only [hcl] at h
      simp only [Except.ok.injEq, Prod.mk.injEq] at h
      obtain ⟨h1, h2⟩ := h
      subst h2
      refine ⟨fs, rfl, ?_, ?_, ?_, ?_⟩
      · rw [← h1]
        exact hcl
      · rw [← h1]
      · rw [← h1]
      · rw [← h1]
    | error e =>
      simp only [hcl] at h
      cases h
  | error e =>
    simp only [hrec] at h
    cases h

theorem overflow_build {l : Limiter} {skip : Errno → Bool}
    {ld : Except Errno (List String)} {st : String → StatRes}
    {u : String → UnlinkRes} {fs fs' : Files} {th' : Int} {log : List String}
    (hscan : scan_dir l.mtch l.dir_name skip ld st = .ok fs)
    (hcl : clean_files l.min l.delete_threshold u fs = .ok (fs', th', log)) :
    process_IN_Q_OVERFLOW l skip ld st u =
      .ok ({ l with files := fs', delete_threshold := th' }, log) := by
  unfold process_IN_Q_OVERFLOW
  rw [hscan]
  simp only [hcl]

theorem create_build {l : Limiter} {n : String} {st : String → StatRes}
    {u : String → UnlinkRes} {fs fs' : Files} {th' : Int} {log : List String}
    (hrec : record_file l.mtch l.dir_name st l.files n = .ok fs)
    (hcl : clean_files l.min l.delete_threshold u fs = .ok (fs', th', log)) :
    process_IN_CREATE l n st u =
      .ok ({ l with files := fs', delete_threshold := th' }, log) := by
  unfold process_IN_CREATE
  rw [hrec]
  simp only [hcl]

theorem overflow_is_ok {l : Limiter} {skip : Errno → Bool}
    {st : String → StatRes} {u : String → UnlinkRes} {names : List String}
    (hst : ∀ p, statOk (st p)) (hu : ∀ p, unlinkOk (u p)) :
    ∃ out, process_IN_Q_OVERFLOW l skip (.ok names) st u = .ok out := by
  obtain ⟨fs, hscan⟩ := foldRecord_is_ok hst names []
  obtain ⟨⟨fs', th', log⟩, hcl⟩ :=
    @clean_is_ok l.min l.delete_threshold u fs hu
  exact ⟨_, overflow_build hscan hcl⟩

theorem overflow_err_of_scan {l : Limiter} {skip : Errno → Bool}
    {ld : Except Errno (List String)} {st : String → StatRes}
    {u : String → UnlinkRes} {e : Errno}
    (hscan : scan_dir l.mtch l.dir_name skip ld st = .error e) :
    process_IN_Q_OVERFLOW l skip ld st u = .error e := by
  unfold process_IN_Q_OVERFLOW
  rw [hscan]

theorem overflow_err_of_clean {l : Limiter} {skip : Errno → Bool}
    {ld : Except Errno (List String)} {st : String → StatRes}
    {u : String → UnlinkRes} {fs : Files} {e : Errno}
    (hscan : scan_dir l.mtch l.dir_name skip ld st = .ok fs)
    (hcl : clean_files l.min l.delete_threshold u fs = .error e) :
    process_IN_Q_OVERFLOW l skip ld st u = .error e := by
  unfold process_IN_Q_OVERFLOW
  rw [hscan]
  simp only [hcl]

theorem clean_files_nil (mn th : Int) (u : String → UnlinkRes) :
    ∃ th', clean_files mn th u [] = .ok ([], th', []) := by
  by_cases h0 : (0 : Int) - mn < th
  · refine ⟨th, ?_⟩
    unfold clean_files
    simp only [List.length_nil, Nat.cast_zero]
    rw [if_pos h0]
  · by_cases h2 : (0 : Int) - mn ≥ th
    · refine ⟨(0 : Int) - mn + 1, ?_⟩
      unfold clean_files
      simp only [List.length_nil, Nat.cast_zero]
      rw [if_neg h0]
      have hloop : cleanLoop u (sortedNames []) [] ((0 : Int) - mn) =
          .ok ([], (0 : Int) - mn, []) := rfl
      simp only [hloop]
      simp only [List.length_nil, Nat.cast_zero]
      rw [if_pos h2]
    · exact absurd (le_of_not_lt h0) h2

/-! ### Lemmas about `step`, `run` and `my_init` -/

theorem step_const {l : Limiter} {ev : Event} {l' : Limiter} {log : List String}
    (h : step l ev = .ok (l', log)) :
    l'.dir_name = l.dir_name ∧ l'.min = l.min ∧ l'.mtch = l.mtch := by
  cases ev with
  | create n st u =>
    simp only [step] at h
    obtain ⟨fs, -, -, h3, h4, h5⟩ := create_ok_parts h
    exact ⟨h3, h4, h5⟩
  | attrib n st u =>
    simp only [step] at h
    obtain ⟨fs, -, -, h3, h4, h5⟩ := create_ok_parts h
    exact ⟨h3, h4, h5⟩
  | modify n st u =>
    simp only [step] at h
    obtain ⟨fs, -, -, h3, h4, h5⟩ := create_ok_parts h
    exact ⟨h3, h4, h5⟩
  | movedTo n st u =>
    simp only [step] at h
    obtain ⟨fs, -, -, h3, h4, h5⟩ := create_ok_parts h
    exact ⟨h3, h4, h5⟩
  | del q =>
    simp only [step, Except.ok.injEq, Prod.mk.injEq] at h
    rw [← h.1]
    exact ⟨rfl, rfl, rfl⟩
  | movedFrom q =>
    simp only [step, Except.ok.injEq, Prod.mk.injEq] at h
    rw [← h.1]
    exact ⟨rfl, rfl, rfl⟩
  | overflow ld st u =>
    simp only [step] at h
    obtain ⟨fs, -, -, h3, h4, h5⟩ := overflow_ok_parts h
    exact ⟨h3, h4, h5⟩

theorem step_avoids {l : Limiter} {ev : Event} {l' : Limiter} {log : List String}
    {p : String} (hf : p ∉ keys l.files)
    (hav : evAvoids l.dir_name l.mtch p ev)
    (h : step l ev = .ok (l', log)) :
    p ∉ keys l'.files ∧ p ∉ log := by
  cases ev with
  | create n st u =>
    simp only [step] at h
    obtain ⟨fs, hrec, hcl, -, -, -⟩ := create_ok_parts h
    have h1 : p ∉ keys fs := record_file_not_mem hf hrec hav
    exact ⟨fun c => h1 (clean_keys_sub hcl p c),
           fun c => h1 (clean_log_mem_keys hcl p c)⟩
  | attrib n st u =>
    simp only [step] at h
    obtain ⟨fs, hrec, hcl, -, -, -⟩ := create_ok_parts h
    have h1 : p ∉ keys fs := record_file_not_mem hf hrec hav
    exact ⟨fun c => h1 (clean_keys_sub hcl p c),
           fun c => h1 (clean_log_mem_keys hcl p c)⟩
  | modify n st u =>
    simp only [step] at h
    obtain ⟨fs, hrec, hcl, -, -, -⟩ := create_ok_parts h
    have h1 : p ∉ keys fs := record_file_not_mem hf hrec hav
    exact ⟨fun c => h1 (clean_keys_sub hcl p c),
           fun c => h1 (clean_log_mem_keys hcl p c)⟩
  | movedTo n st u =>
    simp only [step] at h
    obtain ⟨fs, hrec, hcl, -, -, -⟩ := create_ok_parts h
    have h1 : p ∉ keys fs := record_file_not_mem hf hrec hav
    exact ⟨fun c => h1 (clean_keys_sub hcl p c),
           fun c => h1 (clean_log_mem_keys hcl p c)⟩
  | del q =>
    simp only [step, Except.ok.injEq, Prod.mk.injEq] at h
    obtain ⟨h1, h2⟩ := h
    refine ⟨?_, ?_⟩
    · rw [← h1]
      intro c
      exact hf (mem_of_mem_keys_eraseKey c)
    · rw [← h2]
      intro c
      cases c
  | movedFrom q =>
    simp only [step, Except.ok.injEq, Prod.mk.injEq] at h
    obtain ⟨h1, h2⟩ := h
    refine ⟨?_, ?_⟩
    · rw [← h1]
      intro c
      exact hf (mem_of_mem_keys_eraseKey c)
    · rw [← h2]
      intro c
      cases c
  | overflow ld st u =>
    simp only [step] at h
    obtain ⟨fs, hscan, hcl, -, -, -⟩ := overflow_ok_parts h
    have h1 : p ∉ keys fs := by
      cases ld with
      | ok names =>
        rw [scan_dir_eq_foldRecord] at hscan
        refine foldRecord_not_mem hscan ?_ ?_
        · intro c
          cases c
        · intro n hn hp
          exact hav names rfl n hn hp
      | error e =>
        by_cases hskip : changedUnderErrnos e
        · rw [scan_dir_skip_err hskip] at hscan
          injection hscan with hscan
          rw [← hscan]
          intro c
          cases c
        · rw [scan_dir_fatal_err (Bool.of_not_eq_true hskip)] at hscan
          cases hscan
    exact ⟨fun c => h1 (clean_keys_sub hcl p c),
           fun c => h1 (clean_log_mem_keys hcl p c)⟩

theorem run_avoids {p : String} :
    ∀ {evs : List Event} {l l' : Limiter} {log : List String},
      p ∉ keys l.files →
      (∀ ev, ev ∈ evs → evAvoids l.dir_name l.mtch p ev) →
      run l evs = .ok (l', log) →
      p ∉ keys l'.files ∧ p ∉ log := by
  intro evs
  induction evs with
  | nil =>
    intro l l' log hf _ h
    unfold run at h
    simp only [Except.ok.injEq, Prod.mk.injEq] at h
    obtain ⟨h1, h2⟩ := h
    subst h1
    rw [← h2]
    exact ⟨hf, fun c => by cases c⟩
  | cons ev rest ih =>
    intro l l' log hf hav h
    unfold run at h
    cases hstep : step l ev with
    | ok out =>
      obtain ⟨l₁, log₁⟩ := out
      simp only [hstep] at h
      cases hrun : run l₁ rest with
      | ok out2 =>
        obtain ⟨l₂, log₂⟩ := out2
        simp only [hrun] at h
        simp only [Except.ok.injEq, Prod.mk.injEq] at h
        obtain ⟨h1, h2⟩ := h
        have hs := step_avoids hf (hav ev (List.mem_cons_self ev rest)) hstep
        have hconst := step_const hstep
        have hav1 : ∀ e2, e2 ∈ rest → evAvoids l₁.dir_name l₁.mtch p e2 := by
          intro e2 he2
          rw [hconst.1, hconst.2.2]
          exact hav e2 (List.mem_cons_of_mem ev he2)
        have hrest := ih hs.1 hav1 hrun
        subst h1
        refine ⟨hrest.1, ?_⟩
        rw [← h2]
        intro c
        rcases List.mem_append.mp c with c1 | c2
        · exact hs.2 c1
        · exact hrest.2 c2
      | error e =>
        simp only [hrun] at h
        cases h
    | error e =>
      simp only [hstep] at h
      cases h

theorem step_clean_inv {l : Limiter} {ev : Event} {l' : Limiter}
    {log : List String} (hev : endsWithClean ev)
    (h : step l ev = .ok (l', log)) :
    (l'.files.length : Int) - l'.min < l'.delete_threshold := by
  cases ev with
  | create n st u =>
    simp only [step] at h
    obtain ⟨fs, -, hcl, -, h4, -⟩ := create_ok_parts h
    rw [h4]
    exact clean_pop_inv hcl
  | attrib n st u =>
    simp only [step] at h
    obtain ⟨fs, -, hcl, -, h4, -⟩ := create_ok_parts h
    rw [h4]
    exact clean_pop_inv hcl
  | modify n st u =>
    simp only [step] at h
    obtain ⟨fs, -, hcl, -, h4, -⟩ := create_ok_parts h
    rw [h4]
    exact clean_pop_inv hcl
  | movedTo n st u =>
    simp only [step] at h
    obtain ⟨fs, -, hcl, -, h4, -⟩ := create_ok_parts h
    rw [h4]
    exact clean_pop_inv hcl
  | del q => exact hev.elim
  | movedFrom q => exact hev.elim
  | overflow ld st u =>
    simp only [step] at h
    obtain ⟨fs, -, hcl, -, h4, -⟩ := overflow_ok_parts h
    rw [h4]
    exact clean_pop_inv hcl

theorem myInitScan_ok_of {dir : String} {high low : Int} {M : String → Bool}
    {listdir : Except Errno (List String)} {stat : String → StatRes}
    {u : String → UnlinkRes} {l : Limiter} {log : List String}
    (hov : process_IN_Q_OVERFLOW ⟨dir, low, high - low, M, []⟩ commonErrnos
        listdir stat u = .ok (l, log)) :
    myInitScan dir high low M listdir stat u = .ok l := by
  unfold myInitScan
  simp only [hov]

theorem myInitScan_err_of {dir : String} {high low : Int} {M : String → Bool}
    {listdir : Except Errno (List String)} {stat : String → StatRes}
    {u : String → UnlinkRes} {e : Errno}
    (hov : process_IN_Q_OVERFLOW ⟨dir, low, high - low, M, []⟩ commonErrnos
        listdir stat u = .error e) :
    myInitScan dir high low M listdir stat u = .error (.osError e) := by
  unfold myInitScan
  simp only [hov]

theorem myInitScan_ok_parts {dir : String} {high low : Int} {M : String → Bool}
    {listdir : Except Errno (List String)} {stat : String → StatRes}
    {u : String → UnlinkRes} {l : Limiter}
    (h : myInitScan dir high low M listdir stat u = .ok l) :
    ∃ log, process_IN_Q_OVERFLOW ⟨dir, low, high - low, M, []⟩ commonErrnos
      listdir stat u = .ok (l, log) := by
  unfold myInitScan at h
  cases hov : process_IN_Q_OVERFLOW ⟨dir, low, high - low, M, []⟩ commonErrnos
      listdir stat u with
  | ok out =>
    obtain ⟨l₁, log₁⟩ := out
    simp only [hov] at h
    injection h with h
    subst h
    exact ⟨log₁, rfl⟩
  | error e =>
    simp only [hov] at h
    cases h

theorem my_init_none_eq {dir : String} {high low : Int}
    {cmp : String → Option (String → Bool)}
    {listdir : Except Errno (List String)} {stat : String → StatRes}
    {u : String → UnlinkRes}
    (h1 : ¬ low < 0) (h2 : ¬ high < 0) (h3 : ¬ high - low < 0) :
    my_init dir high low none cmp listdir stat u =
      myInitScan dir high low (fun _ => true) listdir stat u := by
  unfold my_init
  rw [if_neg h1, if_neg h2, if_neg h3]

theorem my_init_some_eq {dir : String} {high low : Int} {pat : String}
    {f : String → Bool} {cmp : String → Option (String → Bool)}
    {listdir : Except Errno (List String)} {stat : String → StatRes}
    {u : String → UnlinkRes}
    (h1 : ¬ low < 0) (h2 : ¬ high < 0) (h3 : ¬ high - low < 0)
    (hcmp : cmp pat = some f) :
    my_init dir high low (some pat) cmp listdir stat u =
      myInitScan dir high low f listdir stat u := by
  unfold my_init
  rw [if_neg h1, if_neg h2, if_neg h3]
  simp only [hcmp]

theorem my_init_ok_parts {dir : String} {high low : Int} {ma : Option String}
    {cmp : String → Option (String → Bool)}
    {listdir : Except Errno (List String)} {stat : String → StatRes}
    {u : String → UnlinkRes} {l : Limiter}
    (h : my_init dir high low ma cmp listdir stat u = .ok l) :
    ∃ M, myInitScan dir high low M listdir stat u = .ok l := by
  unfold my_init at h
  by_cases h1 : low < 0
  · rw [if_pos h1] at h; cases h
  · rw [if_neg h1] at h
    by_cases h2 : high < 0
    · rw [if_pos h2] at h; cases h
    · rw [if_neg h2] at h
      by_cases h3 : high - low < 0
      · rw [if_pos h3] at h; cases h
      · rw [if_neg h3] at h
        cases ma with
        | none => exact ⟨fun _ => true, h⟩
        | some pat =>
          cases hc : cmp pat with
          | none => simp only [hc] at h; cases h
          | some f => simp only [hc] at h; exact ⟨f, h⟩

theorem my_init_pop_inv {dir : String} {high low : Int} {ma : Option String}
    {cmp : String → Option (String → Bool)}
    {listdir : Except Errno (List String)} {stat : String → StatRes}
    {u : String → UnlinkRes} {l : Limiter}
    (h : my_init dir high low ma cmp listdir stat u = .ok l) :
    (l.files.length : Int) - l.min < l.delete_threshold := by
  obtain ⟨M, hscan⟩ := my_init_ok_parts h
  obtain ⟨log, hov⟩ := myInitScan_ok_parts hscan
  obtain ⟨fs, -, hcl, -, h4, -⟩ := overflow_ok_parts hov
  rw [h4]
  exact clean_pop_inv hcl

/-! ### Claim theorems -/

/-- C1 counterexample.  For `high=5, low=2` and creations `1..6` (mtime equal
to the numeric name, all deletes succeeding), the eviction pass triggered by
the fifth create deletes only files `1..3`; file `4` is still tracked at the
end and was never unlinked, so the final population is not `{5, 6}` and file
`4` was not deleted, contrary to the claim. -/
theorem c1_counterexample :
    my_init "d" 5 2 none cmpNone (.ok []) (statConst 0) ulOk = .ok lC1 ∧
    viewRun lC1 evsC1 =
      some ([("d/4", 4), ("d/5", 5), ("d/6", 6)], 3, ["d/1", "d/2", "d/3"]) ∧
    "d/4" ∈ keys [("d/4", 4), ("d/5", 5), ("d/6", 6)] ∧
    "d/4" ∉ ["d/1", "d/2", "d/3"] :=
  ⟨rfl, rfl, by decide, by decide⟩

/-- C1 amended: with `high=5, low=2` and files `1..6` created in order (mtime
equal to the numeric name), every physical delete succeeding, the final
tracked population is exactly files `4`, `5` and `6`, with files `1`, `2`
and `3` deleted (the only unlink calls issued), and the threshold still
`high - low = 3`. -/
theorem c1_amended :
    my_init "d" 5 2 none cmpNone (.ok []) (statConst 0) ulOk = .ok lC1 ∧
    viewRun lC1 evsC1 =
      some ([("d/4", 4), ("d/5", 5), ("d/6", 6)], 3, ["d/1", "d/2", "d/3"]) :=
  ⟨rfl, rfl⟩

/-- C2 counterexample.  In a sweep over three files with `low=0`,
`threshold=3`, where the unlink of the oldest path `"a"` fails with the
tolerated errno `EPERM`, path `"a"` is still in the files map after the
sweep — it was not removed before the physical delete and still counts
toward the tracked population, contrary to the claim. -/
theorem c2_counterexample :
    clean_files 0 3 ulButA fs2ce = .ok ([("a", 1)], 3, ["a", "b", "c"]) ∧
    ulButA "a" = .err .EPERM ∧
    commonErrnos .EPERM = true ∧
    "a" ∈ keys [("a", 1)] :=
  ⟨rfl, rfl, rfl, by decide⟩

/-- C2 amended: during an eviction sweep a path is removed from the files map
only when its physical delete succeeded (any path of the input map missing
from the output map had a successful unlink), and a path whose unlink was
attempted but did not succeed is still in the files map after the sweep (so
it still counts toward the tracked population). -/
theorem c2_amended {mn th : Int} {u : String → UnlinkRes} {fs fs' : Files}
    {th' : Int} {log : List String}
    (hnd : (keys fs).Nodup)
    (h : clean_files mn th u fs = .ok (fs', th', log)) :
    (∀ p, p ∈ keys fs → p ∉ keys fs' → u p = .ok) ∧
    (∀ p, p ∈ log → u p ≠ .ok → p ∈ keys fs') :=
  ⟨clean_removed_ok h, clean_failed_stays hnd h⟩

/-- C2 witness: on the concrete sweep of `c2_counterexample`, the removed
path `"b"` had a successful unlink, and the failed path `"a"` survives in
the map. -/
theorem c2_witness : ulButA "b" = .ok ∧ "a" ∈ keys [("a", 1)] := by
  have h := c2_amended (by decide)
    (rfl : clean_files 0 3 ulButA fs2ce = .ok ([("a", 1)], 3, ["a", "b", "c"]))
  exact ⟨h.1 "b" (by decide) (by decide), h.2 "a" (by decide) (by decide)⟩

/-- C3 counterexample.  A limiter built with `high=1, low=0` whose threshold
was adaptively raised to 2 (after an unlink refused with `EPERM`) keeps
threshold 2 across a channel-overflow rescan: it is not reset to
`high - low = 1`, and the rescanned file survives eviction that a reset
threshold would have triggered. -/
theorem c3_counterexample :
    my_init "d" 1 0 none cmpNone (.ok []) (statConst 1) ulOk = .ok lC3 ∧
    viewRun lC3 evsC3 = some ([("d/a", 1)], 2, ["d/a"]) ∧
    (2 : Int) ≠ 1 - 0 :=
  ⟨rfl, rfl, by decide⟩

/-- C3 amended: processing a channel overflow discards the current files map
(the result is independent of it) and rebuilds the map by a fresh directory
scan, but `deleteThreshold` is not reset to `high - low`: it keeps its
current value, except that the eviction pass of the rescan can raise it
further (it never decreases). -/
theorem c3_amended (d : String) (mn th : Int) (M : String → Bool)
    (fs1 fs2 : Files) (skip : Errno → Bool) (ld : Except Errno (List String))
    (st : String → StatRes) (u : String → UnlinkRes) :
    process_IN_Q_OVERFLOW ⟨d, mn, th, M, fs1⟩ skip ld st u =
      process_IN_Q_OVERFLOW ⟨d, mn, th, M, fs2⟩ skip ld st u ∧
    (∀ l' log, process_IN_Q_OVERFLOW ⟨d, mn, th, M, fs1⟩ skip ld st u =
      .ok (l', log) → th ≤ l'.delete_threshold) := by
  constructor
  · cases hscan : scan_dir M d skip ld st with
    | ok fs =>
      cases hcl : clean_files mn th u fs with
      | ok out =>
        obtain ⟨fs', th', log⟩ := out
        rw [overflow_build hscan hcl, overflow_build hscan hcl]
      | error e =>
        rw [overflow_err_of_clean hscan hcl, overflow_err_of_clean hscan hcl]
    | error e =>
      rw [overflow_err_of_scan hscan, overflow_err_of_scan hscan]
  · intro l' log h
    obtain ⟨fs, -, hcl, -, -, -⟩ := overflow_ok_parts h
    exact clean_threshold_mono hcl

/-- C3 witness: overflow from two states differing only in their files maps
(one of them holding a stale entry) gives identical results, and the
threshold 2 survives the rescan. -/
theorem c3_witness :
    process_IN_Q_OVERFLOW ⟨"d", 0, 2, fun _ => true, [("x", 5)]⟩
        changedUnderErrnos (.ok ["a"]) (statConst 1) ulOk =
      process_IN_Q_OVERFLOW ⟨"d", 0, 2, fun _ => true, []⟩
        changedUnderErrnos (.ok ["a"]) (statConst 1) ulOk ∧
    (2 : Int) ≤ 2 := by
  have h := c3_amended "d" 0 2 (fun _ => true) [("x", 5)] []
    changedUnderErrnos (.ok ["a"]) (statConst 1) ulOk
  exact ⟨h.1, h.2 ⟨"d", 0, 2, fun _ => true, [("d/a", 1)]⟩ [] rfl⟩

/-- C4: after `_clean_files`, if the remaining population still satisfies
`|files| - low ≥ deleteThreshold` the threshold is set to
`(|files| - low) + 1`, and otherwise it is left unchanged. -/
theorem c4_threshold (mn th : Int) (u : String → UnlinkRes) (fs fs' : Files)
    (th' : Int) (log : List String)
    (h : clean_files mn th u fs = .ok (fs', th', log)) :
    (th ≤ (fs'.length : Int) - mn → th' = (fs'.length : Int) - mn + 1) ∧
    ((fs'.length : Int) - mn < th → th' = th) := by
  rcases clean_cases h with ⟨h0, h1, h2, -⟩ | ⟨h0, -, ⟨hge, h2⟩ | ⟨hlt, h2⟩⟩
  · have hlen : fs'.length = fs.length := by rw [h1]
    exact ⟨fun c => by omega, fun _ => h2⟩
  · exact ⟨fun _ => h2, fun c => by omega⟩
  · exact ⟨fun c => by omega, fun _ => h2⟩

/-- C4 witness: a sweep whose every unlink is refused (tolerated) ends with
`|files| - low = 2 ≥ threshold = 2` and raises the threshold to 3. -/
theorem c4_witness : (3 : Int) = ((fs5ce.length : Int) - 2) + 1 :=
  (c4_threshold 2 2 ulFail fs5ce fs5ce 3 ["a", "b", "c", "d"] rfl).1 (by decide)

/-- C5 counterexample.  With four tracked files, `low=2`, `threshold=2`, and
the unlink of the oldest file `"a"` refused with `EPERM`, the sweep walks on
and successfully unlinks `"c"` — one of the `low=2` newest-by-mtime tracked
files — contrary to the claim that the newest `low` are never unlinked. -/
theorem c5_counterexample :
    clean_files 2 2 ulButA fs5ce = .ok ([("a", 1), ("d", 4)], 2, ["a", "b", "c"]) ∧
    "c" ∈ List.drop 2 (sortedNames fs5ce) ∧
    "c" ∈ ["a", "b", "c"] ∧
    ulButA "c" = .ok ∧
    (2 : Int) = (fs5ce.length : Int) - 2 :=
  ⟨rfl, by decide, by decide, rfl, by decide⟩

/-- C5 amended: unlink attempts of a sweep follow the ascending-recorded-mtime
order (the candidate sequence is sorted ascending by mtime and the attempt log
is a prefix of it); when every unlink succeeds, no file among the `low`
newest-by-mtime tracked files is ever unlinked — but under tolerated unlink
failures the sweep may run past them (see the counterexample). -/
theorem c5_amended {mn th : Int} {u : String → UnlinkRes} {fs fs' : Files}
    {th' : Int} {log : List String}
    (hnd : (keys fs).Nodup)
    (h : clean_files mn th u fs = .ok (fs', th', log)) :
    (sortedPairs fs).Pairwise (fun a b => a.2 ≤ b.2) ∧
    (∃ t, sortedNames fs = log ++ t) ∧
    ((∀ p, u p = .ok) →
      ∀ p, p ∈ List.drop ((fs.length : Int) - mn).toNat (sortedNames fs) →
        p ∉ log) :=
  ⟨sortedPairs_ascending fs, clean_log_pre h,
   fun hall => clean_allok_notin_drop hall hnd h⟩

/-- C5 witness: on the all-successes sweep of four files with `low=2`,
`threshold=2`, the attempts `["a", "b"]` are an ascending-mtime prefix and
the surviving newest file `"c"` was never attempted. -/
theorem c5_witness :
    (∃ t, sortedNames fs5ce = ["a", "b"] ++ t) ∧ "c" ∉ ["a", "b"] := by
  have h := c5_amended (by decide)
    (rfl : clean_files 2 2 ulOk fs5ce = .ok ([("c", 3), ("d", 4)], 2, ["a", "b"]))
  exact ⟨h.2.1, h.2.2 (fun p => rfl) "c" (by decide)⟩

/-- C6: `my_init` fails with the dedicated validation error when `low < 0`,
when `high < 0`, when `high < low`, and when the supplied pattern does not
compile; a watched path that is not a directory (its listing fails with
`ENOTDIR`, which the init scan does not tolerate) also fails construction;
and with `low ≥ 0`, `high ≥ low`, a compiling (or absent) pattern and benign
filesystem responses, construction succeeds. -/
theorem c6_validation :
    (∀ (dir : String) (high low : Int) (ma : Option String)
        (cmp : String → Option (String → Bool)) ld st u, low < 0 →
      my_init dir high low ma cmp ld st u = .error InitError.invalidLow) ∧
    (∀ (dir : String) (high low : Int) ma
        (cmp : String → Option (String → Bool)) ld st u, 0 ≤ low → high < 0 →
      my_init dir high low ma cmp ld st u = .error InitError.invalidHigh) ∧
    (∀ (dir : String) (high low : Int) ma
        (cmp : String → Option (String → Bool)) ld st u,
        0 ≤ low → 0 ≤ high → high < low →
      my_init dir high low ma cmp ld st u = .error InitError.invalidWatermark) ∧
    (∀ (dir : String) (high low : Int) (pat : String)
        (cmp : String → Option (String → Bool)) ld st u,
        0 ≤ low → low ≤ high → cmp pat = none →
      my_init dir high low (some pat) cmp ld st u =
        .error InitError.invalidPattern) ∧
    (∀ (dir : String) (high low : Int) (ma : Option String)
        (cmp : String → Option (String → Bool)) st u,
        0 ≤ low → low ≤ high →
        (ma = none ∨ ∃ pat f, ma = some pat ∧ cmp pat = some f) →
      my_init dir high low ma cmp (.error .ENOTDIR) st u =
        .error (InitError.osError .ENOTDIR)) ∧
    (∀ (dir : String) (high low : Int) (ma : Option String)
        (cmp : String → Option (String → Bool)) (L : List String) st u,
        0 ≤ low → low ≤ high →
        (ma = none ∨ ∃ pat f, ma = some pat ∧ cmp pat = some f) →
        (∀ p, statOk (st p)) → (∀ p, unlinkOk (u p)) →
      ∃ l, my_init dir high low ma cmp (.ok L) st u = .ok l) := by
  refine ⟨?_, ?_, ?_, ?_, ?_, ?_⟩
  · intro dir high low ma cmp ld st u hlow
    unfold my_init
    rw [if_pos hlow]
  · intro dir high low ma cmp ld st u h1 hhigh
    unfold my_init
    rw [if_neg (by omega : ¬ low < 0), if_pos hhigh]
  · intro dir high low ma cmp ld st u h1 h2 h3
    unfold my_init
    rw [if_neg (by omega : ¬ low < 0), if_neg (by omega : ¬ high < 0),
      if_pos (by omega : high - low < 0)]
  · intro dir high low pat cmp ld st u h1 h2 hcmp
    unfold my_init
    rw [if_neg (by omega : ¬ low < 0), if_neg (by omega : ¬ high < 0),
      if_neg (by omega : ¬ high - low < 0)]
    simp only [hcmp]
  · intro dir high low ma cmp st u h1 h2 hma
    have h1' : ¬ low < 0 := by omega
    have h2' : ¬ high < 0 := by omega
    have h3' : ¬ high - low < 0 := by omega
    rcases hma with rfl | ⟨pat, f, rfl, hcmp⟩
    · rw [my_init_none_eq h1' h2' h3']
      exact myInitScan_err_of (@overflow_err_of_scan
        ⟨dir, low, high - low, fun _ => true, []⟩ commonErrnos
        (.error .ENOTDIR) st u .ENOTDIR (scan_dir_fatal_err rfl))
    · rw [my_init_some_eq h1' h2' h3' hcmp]
      exact myInitScan_err_of (@overflow_err_of_scan
        ⟨dir, low, high - low, f, []⟩ commonErrnos
        (.error .ENOTDIR) st u .ENOTDIR (scan_dir_fatal_err rfl))
  · intro dir high low ma cmp L st u h1 h2 hma hst hu
    have h1' : ¬ low < 0 := by omega
    have h2' : ¬ high < 0 := by omega
    have h3' : ¬ high - low < 0 := by omega
    rcases hma with rfl | ⟨pat, f, rfl, hcmp⟩
    · rw [my_init_none_eq h1' h2' h3']
      obtain ⟨⟨l1, log1⟩, hov⟩ := @overflow_is_ok
        ⟨dir, low, high - low, fun _ => true, []⟩ commonErrnos st u L hst hu
      exact ⟨l1, myInitScan_ok_of hov⟩
    · rw [my_init_some_eq h1' h2' h3' hcmp]
      obtain ⟨⟨l1, log1⟩, hov⟩ := @overflow_is_ok
        ⟨dir, low, high - low, f, []⟩ commonErrnos st u L hst hu
      exact ⟨l1, myInitScan_ok_of hov⟩

/-- C6 witness: each validation failure demonstrated at a concrete input, and
a concrete successful construction. -/
theorem c6_witness :
    my_init "d" 2 (-1) none cmpNone (.ok []) (statConst 0) ulOk =
      .error InitError.invalidLow ∧
    my_init "d" (-1) 0 none cmpNone (.ok []) (statConst 0) ulOk =
      .error InitError.invalidHigh ∧
    my_init "d" 1 2 none cmpNone (.ok []) (statConst 0) ulOk =
      .error InitError.invalidWatermark ∧
    my_init "d" 2 1 (some "[") cmpNone (.ok []) (statConst 0) ulOk =
      .error InitError.invalidPattern ∧
    my_init "d" 2 1 none cmpNone (.error .ENOTDIR) (statConst 0) ulOk =
      .error (InitError.osError .ENOTDIR) ∧
    (my_init "d" 2 1 none cmpNone (.ok ["a"]) (statConst 3) ulOk).isOk = true := by
  obtain ⟨p1, p2, p3, p4, p5, p6⟩ := c6_validation
  refine ⟨?_, ?_, ?_, ?_, ?_, ?_⟩
  · exact p1 "d" 2 (-1) none cmpNone (.ok []) (statConst 0) ulOk (by decide)
  · exact p2 "d" (-1) 0 none cmpNone (.ok []) (statConst 0) ulOk
      (by decide) (by decide)
  · exact p3 "d" 1 2 none cmpNone (.ok []) (statConst 0) ulOk
      (by decide) (by decide) (by decide)
  · exact p4 "d" 2 1 "[" cmpNone (.ok []) (statConst 0) ulOk
      (by decide) (by decide) rfl
  · exact p5 "d" 2 1 none cmpNone (statConst 0) ulOk
      (by decide) (by decide) (Or.inl rfl)
  · obtain ⟨l, hl⟩ := p6 "d" 2 1 none cmpNone ["a"] (statConst 3) ulOk
      (by decide) (by decide) (Or.inl rfl) (fun _ => trivial) (fun _ => trivial)
    rw [hl]
    rfl

/-- C7 counterexample.  `os.stat` follows symlinks, so its `S_ISREG` bit
reflects the link target: the entry `"s"`, a symlink to a regular file
(hence itself not a regular file), is reported regular by stat, a create
event for it records it in the files map, and the eviction sweep (here
with `high=1, low=0`) then unlinks it — contradicting the claim that a
symlink is never added and never unlinked. -/
theorem c7_counterexample :
    EntryKind.symlink .regular ≠ EntryKind.regular ∧
    stSymlink (joinPath "d" "s") = .ok true 1 ∧
    record_file (fun _ => true) "d" stSymlink [] "s" = .ok [("d/s", 1)] ∧
    "d/s" ∈ keys [("d/s", 1)] ∧
    viewRun lC7s [Event.create "s" stSymlink ulOk] = some ([], 1, ["d/s"]) ∧
    "d/s" ∈ ["d/s"] :=
  ⟨by decide, rfl, rfl, by decide, rfl, by decide⟩

/-- C7 amended: an entry whose resolved kind is not a regular file
(directory, FIFO, socket, or a symlink resolving to any of those) is never
reported regular by the link-following stat, and a path never reported
regular by stat — or whose base name fails the match predicate — is never
added to the files map and never unlinked, over any event sequence; a
symlink resolving to a regular file, however, is reported regular by stat
(and is therefore tracked and evictable, see the counterexample). -/
theorem c7_amended :
    (∀ (k : EntryKind) (t t2 : Int), resolveKind k ≠ EntryKind.regular →
      statOfEntry k t ≠ .ok true t2) ∧
    (∀ (k : EntryKind) (t : Int), resolveKind k = EntryKind.regular →
      statOfEntry k t = .ok true t) ∧
    (∀ (l l' : Limiter) (evs : List Event) (log : List String) (p : String),
      p ∉ keys l.files →
      (∀ ev, ev ∈ evs → evAvoids l.dir_name l.mtch p ev) →
      run l evs = .ok (l', log) →
      p ∉ keys l'.files ∧ p ∉ log) := by
  refine ⟨?_, ?_, fun _ _ _ _ _ hf hev hrun => run_avoids hf hev hrun⟩
  · intro k t t2 hk hcon
    unfold statOfEntry at hcon
    rw [StatRes.ok.injEq] at hcon
    exact hk (by simpa using hcon.1)
  · intro k t hk
    unfold statOfEntry
    rw [hk]
    rfl

/-- C7 witness: a FIFO is never statted regular, and creating the
non-matching name `"x"` leaves it untracked and not unlinked. -/
theorem c7_witness :
    statOfEntry EntryKind.fifo 1 ≠ StatRes.ok true 1 ∧
    ("d/x" ∉ keys lC7.files ∧ "d/x" ∉ ([] : List String)) := by
  refine ⟨c7_amended.1 .fifo 1 1 (by decide), ?_⟩
  refine c7_amended.2.2 lC7 lC7 [evC7] [] "d/x" (by decide) ?_
    (rfl : run lC7 [evC7] = .ok (lC7, []))
  intro ev hev
  have : ev = evC7 := List.mem_singleton.mp hev
  subst this
  simp only [evC7, evAvoids]
  intro hp
  exact Or.inl (by decide)

/-- C8: during the initialization scan, a per-entry stat failing with a
tolerated errno (`ENOENT`/`EPERM`/`EACCES`) only omits that entry — the scan
continues, every other successfully-statted regular entry is recorded, and
the Limiter initializes without the entry; a per-entry stat failing with any
other errno makes `my_init` fail with an `OSError`-derived error, so no watch
is registered. -/
theorem c8_scan_errors :
    (∀ (d : String) (high low : Int)
        (cmp : String → Option (String → Bool)) (L : List String) st u
        (n : String) (e : Errno),
        0 ≤ low → low ≤ high →
        (∀ p, statOk (st p)) → (∀ p, unlinkOk (u p)) →
        n ∈ L → st (joinPath d n) = .err e → commonErrnos e = true →
      (∃ fs, foldRecord (fun _ => true) d st L [] = .ok fs ∧
        joinPath d n ∉ keys fs ∧
        (∀ m t, m ∈ L → st (joinPath d m) = .ok true t →
          joinPath d m ∈ keys fs)) ∧
      (∃ l, my_init d high low none cmp (.ok L) st u = .ok l ∧
        joinPath d n ∉ keys l.files)) ∧
    (∀ (d : String) (high low : Int)
        (cmp : String → Option (String → Bool)) (L : List String) st u
        (n : String) (e : Errno),
        0 ≤ low → low ≤ high →
        n ∈ L → st (joinPath d n) = .err e → commonErrnos e = false →
      ∃ e2, my_init d high low none cmp (.ok L) st u =
        .error (InitError.osError e2)) := by
  constructor
  · intro d high low cmp L st u n e h1 h2 hst hu hn hste hc
    obtain ⟨fs, hfold⟩ := foldRecord_is_ok hst L []
    have hnot : joinPath d n ∉ keys fs := by
      refine foldRecord_not_mem hfold ?_ ?_
      · intro c
        cases c
      · intro m hm hp
        refine Or.inr ?_
        intro t hcon
        rw [hste] at hcon
        cases hcon
    have hkeep : ∀ m t, m ∈ L → st (joinPath d m) = .ok true t →
        joinPath d m ∈ keys fs :=
      fun m t hm hok => foldRecord_kept hfold m t hm rfl hok
    refine ⟨⟨fs, hfold, hnot, hkeep⟩, ?_⟩
    have h1' : ¬ low < 0 := by omega
    have h2' : ¬ high < 0 := by omega
    have h3' : ¬ high - low < 0 := by omega
    rw [my_init_none_eq h1' h2' h3']
    obtain ⟨⟨fs', th', log⟩, hcl⟩ := @clean_is_ok low (high - low) u fs hu
    have hscan : scan_dir (fun _ => true) d commonErrnos (.ok L) st = .ok fs := by
      rw [scan_dir_eq_foldRecord]
      exact hfold
    have hov := @overflow_build ⟨d, low, high - low, fun _ => true, []⟩
      commonErrnos (.ok L) st u fs fs' th' log hscan hcl
    refine ⟨_, myInitScan_ok_of hov, ?_⟩
    intro c
    exact hnot (clean_keys_sub hcl _ c)
  · intro d high low cmp L st u n e h1 h2 hn hste hc
    obtain ⟨e2, hfold⟩ := @foldRecord_fatal (fun _ => true) d st L [] n e hn
      rfl hste hc
    have hscan : scan_dir (fun _ => true) d commonErrnos (.ok L) st =
        .error e2 := by
      rw [scan_dir_eq_foldRecord]
      exact hfold
    have h1' : ¬ low < 0 := by omega
    have h2' : ¬ high < 0 := by omega
    have h3' : ¬ high - low < 0 := by omega
    rw [my_init_none_eq h1' h2' h3']
    exact ⟨e2, myInitScan_err_of (@overflow_err_of_scan
      ⟨d, low, high - low, fun _ => true, []⟩ commonErrnos (.ok L) st u e2
      hscan)⟩

/-- C8 witness: a scan of `["a", "b"]` where the stat of `"d/a"` races away
with `ENOENT` initializes with only `"d/b"` tracked. -/
theorem c8_witness : joinPath "d" "a" ∉ keys lC8.files := by
  have hst : ∀ p, statOk (stC8a p) := by
    intro p
    unfold stC8a
    by_cases hp : p = "d/a"
    · rw [if_pos hp]
      exact rfl
    · rw [if_neg hp]
      exact trivial
  obtain ⟨l, hl, hnot⟩ := (c8_scan_errors.1 "d" 2 0 cmpNone ["a", "b"] stC8a
    ulOk "a" .ENOENT (by decide) (by decide) hst (fun _ => trivial)
    (by decide) rfl rfl).2
  have hc : my_init "d" 2 0 none cmpNone (.ok ["a", "b"]) stC8a ulOk =
      .ok lC8 := rfl
  rw [hl] at hc
  injection hc with hc
  rw [← hc]
  exact hnot

/-- C9: after every completed eviction pass — directly after `_clean_files`,
after a successful `my_init`, and after any successfully processed event that
ends with an eviction pass (create-like events and channel overflow) — the
invariant `|files| - low < deleteThreshold` holds. -/
theorem c9_population_invariant :
    (∀ (mn th : Int) (u : String → UnlinkRes) (fs fs' : Files) (th' : Int)
        (log : List String),
      clean_files mn th u fs = .ok (fs', th', log) →
      (fs'.length : Int) - mn < th') ∧
    (∀ (dir : String) (high low : Int) (ma : Option String)
        (cmp : String → Option (String → Bool)) ld st u (l : Limiter),
      my_init dir high low ma cmp ld st u = .ok l →
      (l.files.length : Int) - l.min < l.delete_threshold) ∧
    (∀ (l : Limiter) (ev : Event) (l' : Limiter) (log : List String),
      endsWithClean ev → step l ev = .ok (l', log) →
      (l'.files.length : Int) - l'.min < l'.delete_threshold) :=
  ⟨fun _ _ _ _ _ _ _ h => clean_pop_inv h,
   fun _ _ _ _ _ _ _ _ _ h => my_init_pop_inv h,
   fun _ _ _ _ hev h => step_clean_inv hev h⟩

/-- C9 witness: a sweep that does not trigger leaves `|files| - low = 1`
under the threshold 3. -/
theorem c9_witness : (fs2ce.length : Int) - 2 < 3 :=
  c9_population_invariant.1 2 3 ulOk fs2ce fs2ce 3 [] rfl

/-- C10: initializing on a directory whose listing fails with `ENOENT` (the
path does not exist) succeeds — the errno is tolerated by the init scan —
and the Limiter is constructed with an empty files map. -/
theorem c10_missing_dir (dir : String) (high low : Int) (ma : Option String)
    (cmp : String → Option (String → Bool)) (st : String → StatRes)
    (u : String → UnlinkRes)
    (h1 : 0 ≤ low) (h2 : low ≤ high)
    (hma : ma = none ∨ ∃ pat f, ma = some pat ∧ cmp pat = some f) :
    ∃ l, my_init dir high low ma cmp (.error .ENOENT) st u = .ok l ∧
      l.files = [] := by
  have h1' : ¬ low < 0 := by omega
  have h2' : ¬ high < 0 := by omega
  have h3' : ¬ high - low < 0 := by omega
  obtain ⟨th', hcl⟩ := clean_files_nil low (high - low) u
  rcases hma with rfl | ⟨pat, f, rfl, hcmp⟩
  · rw [my_init_none_eq h1' h2' h3']
    have hscan : scan_dir (fun _ => true) dir commonErrnos
        (.error .ENOENT) st = .ok [] := scan_dir_skip_err rfl
    have hov := @overflow_build ⟨dir, low, high - low, fun _ => true, []⟩
      commonErrnos (.error .ENOENT) st u [] [] th' [] hscan hcl
    exact ⟨_, myInitScan_ok_of hov, rfl⟩
  · rw [my_init_some_eq h1' h2' h3' hcmp]
    have hscan : scan_dir f dir commonErrnos (.error .ENOENT) st = .ok [] :=
      scan_dir_skip_err rfl
    have hov := @overflow_build ⟨dir, low, high - low, f, []⟩
      commonErrnos (.error .ENOENT) st u [] [] th' [] hscan hcl
    exact ⟨_, myInitScan_ok_of hov, rfl⟩

/-- C10 witness: `high=5, low=2` on a missing directory constructs the same
empty-map limiter as on an empty directory. -/
theorem c10_witness : lC1.files = ([] : Files) := by
  obtain ⟨l, hl, hfiles⟩ := c10_missing_dir "d" 5 2 none cmpNone (statConst 0)
    ulOk (by decide) (by decide) (Or.inl rfl)
  have hc : my_init "d" 5 2 none cmpNone (.error .ENOENT) (statConst 0) ulOk =
      .ok lC1 := rfl
  rw [hl] at hc
  injection hc with hc
  rw [← hc]
  exact hfiles

end LimitFiles
